import Mathlib

/-!
# Verification of the GoldenCity Memo API note store

Shallow embedding of `app/models.py` and `app/storage.py`.

Modelling choices, each justified by the Python semantics:

* Timestamps (`datetime.now(UTC)`) are `Nat` ticks: only comparison and
  assignment are used by the code.  Every operation that calls `now()`
  takes the current clock value as an explicit `now` argument.
* Note ids (`uuid4()`) are `Nat`: only equality is used.  `create` takes
  the freshly generated id as an explicit argument; uniqueness of uuid4
  output becomes a freshness hypothesis where a claim needs it.
* `Note.title` / `Note.content` are `Option String`: although the pydantic
  annotation is `str`, `NoteStorage.update` writes fields with `setattr`
  and the `Note` model does not enable `validate_assignment`, so at run
  time a field can hold Python `None` (modelled `none`).  `create` always
  stores `some`.
* `NoteUpdate` fields are `Option (Option String)`: the outer layer is
  pydantic's set/unset distinction (`model_dump(exclude_unset=True)`
  keeps a field iff it was explicitly provided), the inner layer is the
  value, which may itself be JSON `null`.
* Each store operation is a function `Storage → result × Storage`,
  mirroring the mutation of `self._notes` by explicit state passing.
-/

namespace GoldenCity

abbrev Timestamp := Nat
abbrev NoteId := Nat

/-- `app/models.py` `Note`: id, title, content and the two timestamps.
`title`/`content` are the run-time value space (`None` is representable,
see module comment). -/
structure Note where
  id : NoteId
  title : Option String
  content : Option String
  created_at : Timestamp
  updated_at : Timestamp
  deriving Repr, DecidableEq

/-- `app/models.py` `NoteCreate`: required title and content. -/
structure NoteCreate where
  title : String
  content : String
  deriving Repr, DecidableEq

/-- `app/models.py` `NoteUpdate`: each field independently unset (`none`),
or set to a value that may itself be `null` (`some none`). -/
structure NoteUpdate where
  title : Option (Option String) := none
  content : Option (Option String) := none
  deriving Repr, DecidableEq

/-- Boundary validation of `NoteCreate` (pydantic `Field` constraints):
title non-empty and at most 200 characters, content non-empty. -/
def NoteCreate.validB (nc : NoteCreate) : Bool :=
  decide (1 ≤ nc.title.length) && decide (nc.title.length ≤ 200) &&
    decide (1 ≤ nc.content.length)

/-- Validation of one optional string field of `NoteUpdate`: an explicit
`null` passes (the annotation is `str | None`), a string must satisfy the
length constraints. -/
def optStrOk (maxLen : Option Nat) : Option String → Bool
  | none => true
  | some s =>
      decide (1 ≤ s.length) &&
        (match maxLen with
         | none => true
         | some m => decide (s.length ≤ m))

/-- Boundary validation of `NoteUpdate` (pydantic): each set field must be
`null` or a constraint-satisfying string; unset fields are not checked. -/
def NoteUpdate.validB (u : NoteUpdate) : Bool :=
  (match u.title with
   | none => true
   | some v => optStrOk (some 200) v) &&
  (match u.content with
   | none => true
   | some v => optStrOk none v)

/-- The `Note(**note_data.model_dump())` constructor call in
`NoteStorage.create`: fresh id, `created_at = updated_at = now`. -/
def Note.ofCreate (nc : NoteCreate) (id : NoteId) (now : Timestamp) : Note :=
  { id := id, title := some nc.title, content := some nc.content,
    created_at := now, updated_at := now }

/-- `self._notes`: the store's list of notes in insertion order. -/
abbrev Storage := List Note

/-- `NoteStorage.create`: construct the note and append it. -/
def create (s : Storage) (nc : NoteCreate) (id : NoteId) (now : Timestamp) :
    Note × Storage :=
  let note := Note.ofCreate nc id now
  (note, s ++ [note])

/-- Stable insertion for a sort by `created_at` descending: `a` goes in
front of the first element whose `created_at` is not strictly greater,
so an element inserted later than its ties ends up after them. -/
def insertByCreatedDesc (a : Note) : List Note → List Note
  | [] => [a]
  | b :: bs =>
      if a.created_at < b.created_at then b :: insertByCreatedDesc a bs
      else a :: b :: bs

/-- Embedding of Python `sorted(notes, key=lambda x: x.created_at,
reverse=True)`.  Python's `sorted` is stable also with `reverse=True`;
a stable sort by a total key order is extensionally unique, so the
stable insertion sort below is the same function. -/
def sortByCreatedDesc : List Note → List Note
  | [] => []
  | a :: as => insertByCreatedDesc a (sortByCreatedDesc as)

/-- `NoteStorage.get_all`: return the sorted copy; `self._notes` is not
assigned (`sorted` builds a new list). -/
def get_all (s : Storage) : List Note × Storage :=
  (sortByCreatedDesc s, s)

/-- The generator expression in `NoteStorage.get_by_id`: first stored note
with the given id, else `None`. -/
def findById (s : Storage) (id : NoteId) : Option Note :=
  s.find? (fun n => n.id == id)

/-- `NoteStorage.get_by_id`: a pure read. -/
def get_by_id (s : Storage) (id : NoteId) : Option Note × Storage :=
  (findById s id, s)

/-- The loop `for field, value in update_data.items(): setattr(note, field,
value)` followed by `note.updated_at = datetime.now(UTC)`: set fields
overwrite (also with `None`), unset fields are untouched, `updated_at` is
unconditionally refreshed. -/
def applyUpdate (u : NoteUpdate) (now : Timestamp) (n : Note) : Note :=
  { n with
    title := u.title.getD n.title,
    content := u.content.getD n.content,
    updated_at := now }

/-- In-place mutation of the first note with the given id, as explicit
state: `NoteStorage.update` mutates the object found by `get_by_id`,
which is the first list element with that id. -/
def replaceFirstById (id : NoteId) (f : Note → Note) : Storage → Storage
  | [] => []
  | n :: ns => if n.id == id then f n :: ns else n :: replaceFirstById id f ns

/-- `NoteStorage.update`: `None` and no state change when the id is
absent, otherwise mutate the found note and return it. -/
def update (s : Storage) (id : NoteId) (u : NoteUpdate) (now : Timestamp) :
    Option Note × Storage :=
  match findById s id with
  | none => (none, s)
  | some n => (some (applyUpdate u now n), replaceFirstById id (applyUpdate u now) s)

/-- `self._notes.remove(note)` where `note` is the first element with the
given id: `remove` deletes the first element `==`-equal to `note`, and no
earlier element can equal it (equality includes the id, and no earlier
element has this id), so exactly the first element with the id goes. -/
def eraseFirstById (id : NoteId) : Storage → Storage
  | [] => []
  | n :: ns => if n.id == id then ns else n :: eraseFirstById id ns

/-- `NoteStorage.delete`: `False` and no change when the id is absent,
otherwise remove the found note and return `True`. -/
def delete (s : Storage) (id : NoteId) : Bool × Storage :=
  match findById s id with
  | none => (false, s)
  | some _ => (true, eraseFirstById id s)

/-- `NoteStorage.clear`: empty the list. -/
def clear (_s : Storage) : Unit × Storage :=
  ((), [])

/-- The data-model invariant `created_at <= updated_at` for every stored
note. -/
def timestampInv (s : Storage) : Prop :=
  ∀ n ∈ s, n.created_at ≤ n.updated_at

/-- Uniqueness of ids across the live notes of a store (guaranteed by
uuid4 generation). -/
def uniqueIds (s : Storage) : Prop :=
  (s.map Note.id).Nodup

/-- A sequence of `create` calls, each with its generated id and its
clock reading. -/
def createMany (s : Storage) : List (NoteCreate × NoteId × Timestamp) → Storage
  | [] => s
  | item :: rest => createMany (create s item.1 item.2.1 item.2.2).2 rest

/-- The update payload of the JSON body `{"title": null}`: `title` is
explicitly set, to the null value; `content` is unset. -/
def nullTitleUpdate : NoteUpdate :=
  { title := some none, content := none }

/-- What `delete` does when the id is present: returns `True`, leaves the
store minus exactly the first note with that id (every other note still
present, length down by one, the id absent from a subsequent `get_all`),
and a second `delete` of the same id returns `False` without change. -/
def deleteSpec (s : Storage) (id : NoteId) : Prop :=
  (delete s id).1 = true ∧
  (delete s id).2 = eraseFirstById id s ∧
  (∀ m ∈ eraseFirstById id s, m ∈ s) ∧
  (∀ m ∈ s, m.id ≠ id → m ∈ eraseFirstById id s) ∧
  (eraseFirstById id s).length + 1 = s.length ∧
  ((get_all (eraseFirstById id s)).1).length + 1 = s.length ∧
  (∀ m ∈ (get_all (eraseFirstById id s)).1, m.id ≠ id) ∧
  delete (eraseFirstById id s) id = (false, eraseFirstById id s)

/-! ## Python-object-level model

The store state above treats notes as values.  To reason about the
snapshot returned by `get_all`, aliasing matters: `sorted(...)` builds a
new *list*, but the list holds references to the very `Note` objects the
store mutates in place (`setattr` in `NoteStorage.update`), and a deleted
note object survives in any list still referencing it.  We model object
identity by the note id (one object per id, as uuid4 guarantees): the
`heap` carries the current field values of every note object ever
created, `live` is the store's `self._notes` list as a list of
references, and a snapshot returned to a caller is likewise a list of
references, read back through the heap. -/

structure PyState where
  heap : List Note
  live : List NoteId
  deriving Repr, DecidableEq

/-- Dereference a list of note references against the current heap. -/
def readSnapshot (st : PyState) (snap : List NoteId) : List (Option Note) :=
  snap.map (fun i => findById st.heap i)

/-- The note objects currently in `self._notes`, in insertion order. -/
def PyState.liveNotes (st : PyState) : List Note :=
  st.live.filterMap (fun i => findById st.heap i)

/-- `create` allocates a new object and appends a reference to it. -/
def PyState.create (st : PyState) (nc : NoteCreate) (id : NoteId)
    (now : Timestamp) : Note × PyState :=
  let note := Note.ofCreate nc id now
  (note, { heap := st.heap ++ [note], live := st.live ++ [id] })

/-- `get_all` hands back references to the live objects, sorted. -/
def PyState.get_all (st : PyState) : List NoteId × PyState :=
  ((sortByCreatedDesc st.liveNotes).map Note.id, st)

/-- `update` mutates the found object in place; the reference lists are
untouched. -/
def PyState.update (st : PyState) (id : NoteId) (u : NoteUpdate)
    (now : Timestamp) : Option NoteId × PyState :=
  if st.live.contains id then
    (some id, { st with heap := replaceFirstById id (applyUpdate u now) st.heap })
  else
    (none, st)

/-- `delete` drops the reference from `self._notes`; the object itself
survives in other lists that still reference it. -/
def PyState.delete (st : PyState) (id : NoteId) : Bool × PyState :=
  if st.live.contains id then
    (true, { st with live := st.live.erase id })
  else
    (false, st)

/-! ## Concrete objects used by the witness theorems -/

/-- A one-note store contents: id 1, title `"T"`, content `"C"`,
both timestamps 0. -/
def wNote : Note :=
  { id := 1, title := some "T", content := some "C",
    created_at := 0, updated_at := 0 }

/-- Three creates titled `"A"`, `"B"`, `"C"` at strictly increasing
times. -/
def wItems : List (NoteCreate × NoteId × Timestamp) :=
  [(⟨"A", "a"⟩, 1, 0), (⟨"B", "b"⟩, 2, 1), (⟨"C", "c"⟩, 3, 2)]

/-- A Python-level state holding the single object `wNote`. -/
def wSt : PyState :=
  { heap := [wNote], live := [1] }

/-! ## Helper lemmas about the sort -/

theorem insertByCreatedDesc_perm (a : Note) (l : List Note) :
    (insertByCreatedDesc a l).Perm (a :: l) := by
  induction l with
  | nil => simp [insertByCreatedDesc]
  | cons b bs ih =>
      by_cases h : a.created_at < b.created_at
      · simp only [insertByCreatedDesc, if_pos h]
        exact (List.Perm.cons b ih).trans (List.Perm.swap a b bs)
      · simp [insertByCreatedDesc, if_neg h]

theorem sortByCreatedDesc_perm (l : List Note) :
    (sortByCreatedDesc l).Perm l := by
  induction l with
  | nil => simp [sortByCreatedDesc]
  | cons a as ih =>
      exact (insertByCreatedDesc_perm a (sortByCreatedDesc as)).trans
        (List.Perm.cons a ih)

theorem pairwise_insertByCreatedDesc (a : Note) (l : List Note)
    (h : l.Pairwise (fun x y => y.created_at ≤ x.created_at)) :
    (insertByCreatedDesc a l).Pairwise (fun x y => y.created_at ≤ x.created_at) := by
  induction l with
  | nil => simp [insertByCreatedDesc]
  | cons b bs ih =>
      rcases List.pairwise_cons.mp h with ⟨hb, hbs⟩
      by_cases hc : a.created_at < b.created_at
      · simp only [insertByCreatedDesc, if_pos hc]
        refine List.pairwise_cons.mpr ⟨?_, ih hbs⟩
        intro x hx
        have hx2 : x ∈ a :: bs := (insertByCreatedDesc_perm a bs).mem_iff.mp hx
        rcases List.mem_cons.mp hx2 with hx3 | hx3
        · subst hx3; exact Nat.le_of_lt hc
        · exact hb x hx3
      · simp only [insertByCreatedDesc, if_neg hc]
        refine List.pairwise_cons.mpr ⟨?_, h⟩
        intro x hx
        rcases List.mem_cons.mp hx with hx | hx
        · subst hx; exact Nat.le_of_not_lt hc
        · exact Nat.le_trans (hb x hx) (Nat.le_of_not_lt hc)

theorem sortByCreatedDesc_pairwise (l : List Note) :
    (sortByCreatedDesc l).Pairwise (fun x y => y.created_at ≤ x.created_at) := by
  induction l with
  | nil => simp [sortByCreatedDesc]
  | cons a as ih => exact pairwise_insertByCreatedDesc a _ ih

theorem filter_insertByCreatedDesc (a : Note) (l : List Note) (c : Timestamp) :
    (insertByCreatedDesc a l).filter (fun n => n.created_at == c) =
      (a :: l).filter (fun n => n.created_at == c) := by
  induction l with
  | nil => rfl
  | cons b bs ih =>
      by_cases hc : a.created_at < b.created_at
      · simp only [insertByCreatedDesc, if_pos hc]
        by_cases ha : a.created_at = c
        · have hb : ¬ (b.created_at = c) := by
            intro hbc; rw [ha] at hc; rw [hbc] at hc; exact Nat.lt_irrefl c hc
          simp [List.filter_cons, ha, hb, ih]
        · simp [List.filter_cons, ha, ih]
      · simp [insertByCreatedDesc, if_neg hc]

theorem sortByCreatedDesc_filter (l : List Note) (c : Timestamp) :
    (sortByCreatedDesc l).filter (fun n => n.created_at == c) =
      l.filter (fun n => n.created_at == c) := by
  induction l with
  | nil => rfl
  | cons a as ih =>
      calc (sortByCreatedDesc (a :: as)).filter (fun n => n.created_at == c)
          = (a :: sortByCreatedDesc as).filter (fun n => n.created_at == c) :=
            filter_insertByCreatedDesc a _ c
        _ = _ := by simp [List.filter_cons, ih]

/-- If every element of `l` was created strictly later than `a`, stable
insertion puts `a` at the very end. -/
theorem insertByCreatedDesc_eq_append (a : Note) (l : List Note)
    (h : ∀ b ∈ l, a.created_at < b.created_at) :
    insertByCreatedDesc a l = l ++ [a] := by
  induction l with
  | nil => rfl
  | cons b bs ih =>
      have hb : a.created_at < b.created_at := h b (List.mem_cons_self b bs)
      simp only [insertByCreatedDesc, if_pos hb, List.cons_append]
      rw [ih (fun x hx => h x (List.mem_cons_of_mem b hx))]

/-- A store whose notes have strictly increasing `created_at` along the
insertion order sorts to its own reverse. -/
theorem sortByCreatedDesc_of_strict_increasing (l : List Note)
    (h : l.Pairwise (fun x y => x.created_at < y.created_at)) :
    sortByCreatedDesc l = l.reverse := by
  induction l with
  | nil => rfl
  | cons a as ih =>
      rcases List.pairwise_cons.mp h with ⟨ha, has⟩
      have : sortByCreatedDesc (a :: as) = insertByCreatedDesc a (sortByCreatedDesc as) := rfl
      rw [this, ih has, insertByCreatedDesc_eq_append]
      · simp
      · intro b hb
        exact ha b (List.mem_reverse.mp hb)

/-! ## Helper lemmas about lookup, replacement and removal -/

theorem findById_eq_none_iff (s : Storage) (id : NoteId) :
    findById s id = none ↔ ∀ n ∈ s, n.id ≠ id := by
  simp [findById, List.find?_eq_none]

theorem findById_mem {s : Storage} {id : NoteId} {n : Note}
    (h : findById s id = some n) : n ∈ s ∧ n.id = id := by
  refine ⟨List.mem_of_find?_eq_some h, ?_⟩
  have := List.find?_some h
  simpa using this

theorem findById_append_fresh {s : Storage} {x : Note}
    (h : ∀ n ∈ s, n.id ≠ x.id) : findById (s ++ [x]) x.id = some x := by
  induction s with
  | nil => simp [findById, List.find?]
  | cons n ns ih =>
      have hn : n.id ≠ x.id := h n (List.mem_cons_self n ns)
      have hrec := ih (fun m hm => h m (List.mem_cons_of_mem n hm))
      simp only [findById, List.cons_append, List.find?] at hrec ⊢
      rw [show (n.id == x.id) = false from beq_false_of_ne hn]
      exact hrec

theorem findById_append_of_ne {s : Storage} {x : Note} {i : NoteId}
    (h : x.id ≠ i) : findById (s ++ [x]) i = findById s i := by
  induction s with
  | nil => simp [findById, List.find?, beq_false_of_ne h]
  | cons n ns ih =>
      simp only [findById, List.cons_append, List.find?] at ih ⊢
      cases hni : (n.id == i) with
      | true => rfl
      | false => exact ih

theorem findById_replaceFirstById (s : Storage) (id i : NoteId) (f : Note → Note)
    (hf : ∀ n, (f n).id = n.id) :
    findById (replaceFirstById id f s) i =
      if i = id then (findById s id).map f else findById s i := by
  induction s with
  | nil => by_cases h : i = id <;> simp [replaceFirstById, findById, List.find?, h]
  | cons n ns ih =>
      by_cases hn : n.id = id
      · simp only [replaceFirstById, beq_iff_eq, if_pos hn]
        by_cases hi : i = id
        · subst hi
          simp [findById, List.find?, hf n, hn]
        · have h1 : ((f n).id == i) = false := by
            rw [hf n, hn]; exact beq_false_of_ne (fun h => hi h.symm)
          have h2 : (n.id == i) = false := by
            rw [hn]; exact beq_false_of_ne (fun h => hi h.symm)
          simp [findById, List.find?, h1, h2, hi]
      · simp only [replaceFirstById, beq_iff_eq, if_neg hn]
        by_cases hi : i = id
        · subst hi
          have h2 : (n.id == i) = false := beq_false_of_ne hn
          simpa [findById, List.find?, h2] using ih
        · simp only [findById, List.find?] at ih ⊢
          cases hni : (n.id == i) with
          | true => simp [hi]
          | false => simpa [hi] using ih

theorem eraseFirstById_sublist (id : NoteId) (s : Storage) :
    (eraseFirstById id s).Sublist s := by
  induction s with
  | nil => simp [eraseFirstById]
  | cons n ns ih =>
      by_cases hn : n.id = id
      · simp only [eraseFirstById, beq_iff_eq, if_pos hn]
        exact List.sublist_cons_self n ns
      · simp only [eraseFirstById, beq_iff_eq, if_neg hn]
        exact List.Sublist.cons₂ n ih

theorem mem_eraseFirstById_of_ne {s : Storage} {id : NoteId} {m : Note}
    (hm : m ∈ s) (hne : m.id ≠ id) : m ∈ eraseFirstById id s := by
  induction s with
  | nil => simp at hm
  | cons n ns ih =>
      by_cases hn : n.id = id
      · simp only [eraseFirstById, beq_iff_eq, if_pos hn]
        rcases List.mem_cons.mp hm with h | h
        · exact absurd (h ▸ hn) hne
        · exact h
      · simp only [eraseFirstById, beq_iff_eq, if_neg hn]
        rcases List.mem_cons.mp hm with h | h
        · exact h ▸ List.mem_cons_self n _
        · exact List.mem_cons_of_mem n (ih h)

theorem eraseFirstById_length {s : Storage} {id : NoteId} {n : Note}
    (h : findById s id = some n) :
    (eraseFirstById id s).length + 1 = s.length := by
  induction s with
  | nil => simp [findById, List.find?] at h
  | cons m ms ih =>
      by_cases hm : m.id = id
      · simp [eraseFirstById, hm]
      · have h2 : (m.id == id) = false := beq_false_of_ne hm
        simp only [findById, List.find?, h2] at h
        simp [eraseFirstById, hm, ih h]

theorem findById_eraseFirstById {s : Storage} {id : NoteId}
    (hu : uniqueIds s) : findById (eraseFirstById id s) id = none := by
  induction s with
  | nil => simp [eraseFirstById, findById, List.find?]
  | cons n ns ih =>
      have hcons : n.id ∉ List.map Note.id ns ∧ (List.map Note.id ns).Nodup :=
        List.nodup_cons.mp (by simpa only [uniqueIds, List.map_cons] using hu)
      have hu' : uniqueIds ns := hcons.2
      by_cases hn : n.id = id
      · simp only [eraseFirstById, beq_iff_eq, if_pos hn]
        rw [findById_eq_none_iff]
        intro m hm hmid
        exact hcons.1 (by simpa [hn, ← hmid] using List.mem_map_of_mem Note.id hm)
      · simp only [eraseFirstById, beq_iff_eq, if_neg hn]
        simp only [findById, List.find?, beq_false_of_ne hn]
        exact ih hu'

/-- Every id in a `get_all` snapshot is the id of some heap object. -/
theorem snapshot_id_mem_heap {st : PyState} {i : NoteId}
    (h : i ∈ (PyState.get_all st).1) : i ∈ st.heap.map Note.id := by
  simp only [PyState.get_all, List.mem_map] at h
  rcases h with ⟨x, hx, hxi⟩
  have hx2 : x ∈ st.liveNotes := (sortByCreatedDesc_perm _).subset hx
  simp only [PyState.liveNotes, List.mem_filterMap] at hx2
  rcases hx2 with ⟨j, _, hj⟩
  have := findById_mem hj
  exact hxi ▸ List.mem_map_of_mem Note.id this.1

/-- An element of a replaced store is an original note or the image of an
original note under the replacement function. -/
theorem mem_replaceFirstById {id : NoteId} {f : Note → Note} {s : Storage} {m : Note}
    (h : m ∈ replaceFirstById id f s) : m ∈ s ∨ ∃ x ∈ s, m = f x := by
  induction s with
  | nil => simp [replaceFirstById] at h
  | cons n ns ih =>
      by_cases hn : n.id = id
      · simp only [replaceFirstById, beq_iff_eq, if_pos hn] at h
        rcases List.mem_cons.mp h with h1 | h1
        · exact Or.inr ⟨n, List.mem_cons_self n ns, h1⟩
        · exact Or.inl (List.mem_cons_of_mem n h1)
      · simp only [replaceFirstById, beq_iff_eq, if_neg hn] at h
        rcases List.mem_cons.mp h with h1 | h1
        · exact Or.inl (h1 ▸ List.mem_cons_self n ns)
        · rcases ih h1 with h2 | ⟨x, hx, hfx⟩
          · exact Or.inl (List.mem_cons_of_mem n h2)
          · exact Or.inr ⟨x, List.mem_cons_of_mem n hx, hfx⟩

/-- `createMany` from the empty store lays the notes down in creation
order. -/
theorem createMany_eq (s : Storage) (items : List (NoteCreate × NoteId × Timestamp)) :
    createMany s items =
      s ++ items.map (fun it => Note.ofCreate it.1 it.2.1 it.2.2) := by
  induction items generalizing s with
  | nil => simp [createMany]
  | cons it rest ih =>
      simp only [createMany, create, List.map_cons]
      rw [ih]
      simp

/-! ## Claim theorems -/

/-- C1: for every store state and note with id present in it,
`update(id, partial)` changes exactly the fields set in the partial
payload plus `updated_at`: set fields take their new value, unset fields
keep their prior value, `id` and `created_at` are unchanged, `updated_at`
is unconditionally set to `now()` (hence, under the monotone clock, `>=`
its prior value) even when no field value changed, and every note with a
different id is untouched. -/
theorem update_is_partial_merge (s : Storage) (id : NoteId) (u : NoteUpdate)
    (now : Timestamp) (n : Note)
    (h : findById s id = some n) (hclock : n.updated_at ≤ now) :
    ∃ n', (update s id u now).1 = some n' ∧
      (∀ v, u.title = some v → n'.title = v) ∧
      (u.title = none → n'.title = n.title) ∧
      (∀ v, u.content = some v → n'.content = v) ∧
      (u.content = none → n'.content = n.content) ∧
      n'.id = n.id ∧ n'.created_at = n.created_at ∧
      n'.updated_at = now ∧ n.updated_at ≤ n'.updated_at ∧
      (∀ i, i ≠ id → findById ((update s id u now).2) i = findById s i) := by
  refine ⟨applyUpdate u now n, ?_⟩
  have hupd : update s id u now =
      (some (applyUpdate u now n), replaceFirstById id (applyUpdate u now) s) := by
    simp [update, h]
  refine ⟨by rw [hupd], ?_, ?_, ?_, ?_, rfl, rfl, rfl, hclock, ?_⟩
  · intro v hv; simp [applyUpdate, hv]
  · intro hv; simp [applyUpdate, hv]
  · intro v hv; simp [applyUpdate, hv]
  · intro hv; simp [applyUpdate, hv]
  · intro i hi
    rw [hupd]
    rw [findById_replaceFirstById s id i (applyUpdate u now) (fun _ => rfl)]
    simp [hi]

theorem update_is_partial_merge_witness :
    (findById [wNote] 1 = some wNote ∧ wNote.updated_at ≤ 5) ∧
    (∃ n', (update [wNote] 1 { title := some (some "T2"), content := none } 5).1 = some n' ∧
      (∀ v, ({ title := some (some "T2"), content := none } : NoteUpdate).title = some v →
        n'.title = v) ∧
      (({ title := some (some "T2"), content := none } : NoteUpdate).title = none →
        n'.title = wNote.title) ∧
      (∀ v, ({ title := some (some "T2"), content := none } : NoteUpdate).content = some v →
        n'.content = v) ∧
      (({ title := some (some "T2"), content := none } : NoteUpdate).content = none →
        n'.content = wNote.content) ∧
      n'.id = wNote.id ∧ n'.created_at = wNote.created_at ∧
      n'.updated_at = 5 ∧ wNote.updated_at ≤ n'.updated_at ∧
      (∀ i, i ≠ 1 →
        findById ((update [wNote] 1 { title := some (some "T2"), content := none } 5).2) i =
          findById [wNote] i)) :=
  ⟨⟨by decide, by decide⟩,
    update_is_partial_merge [wNote] 1 { title := some (some "T2"), content := none } 5 wNote
      (by decide) (by decide)⟩

/-- C2: for valid input and a fresh id, `create` immediately followed by
`get_by_id` at the returned id yields the created note back, it carries
the given title and content, and `created_at = updated_at`. -/
theorem create_get_round_trip (s : Storage) (nc : NoteCreate) (id : NoteId)
    (now : Timestamp)
    (hvalid : NoteCreate.validB nc = true)
    (hfresh : ∀ m ∈ s, m.id ≠ id) :
    (get_by_id (create s nc id now).2 (create s nc id now).1.id).1 =
        some (create s nc id now).1 ∧
    (create s nc id now).1.title = some nc.title ∧
    (create s nc id now).1.content = some nc.content ∧
    (create s nc id now).1.id = id ∧
    (create s nc id now).1.created_at = (create s nc id now).1.updated_at := by
  refine ⟨?_, rfl, rfl, rfl, rfl⟩
  have : (create s nc id now).1.id = id := rfl
  simp only [get_by_id, create]
  exact congrArg some rfl ▸ (by
    have := findById_append_fresh (s := s) (x := Note.ofCreate nc id now) hfresh
    simpa using this)

theorem create_get_round_trip_witness :
    (NoteCreate.validB ⟨"A", "B"⟩ = true ∧ (∀ m ∈ ([] : Storage), m.id ≠ 0)) ∧
    ((get_by_id (create [] ⟨"A", "B"⟩ 0 0).2 (create [] ⟨"A", "B"⟩ 0 0).1.id).1 =
        some (create [] ⟨"A", "B"⟩ 0 0).1 ∧
      (create [] ⟨"A", "B"⟩ 0 0).1.title = some "A" ∧
      (create [] ⟨"A", "B"⟩ 0 0).1.content = some "B" ∧
      (create [] ⟨"A", "B"⟩ 0 0).1.id = 0 ∧
      (create [] ⟨"A", "B"⟩ 0 0).1.created_at = (create [] ⟨"A", "B"⟩ 0 0).1.updated_at) :=
  ⟨⟨by decide, by decide⟩,
    create_get_round_trip [] ⟨"A", "B"⟩ 0 0 (by decide) (by decide)⟩

/-- C4: `get_all` returns every stored note (a permutation of the store),
ordered by `created_at` descending, with equal-`created_at` notes kept in
insertion order (the filter at each timestamp is preserved), and on the
empty store it returns the empty sequence. -/
theorem get_all_sorted_stable (s : Storage) :
    ((get_all s).1).Perm s ∧
    ((get_all s).1).Pairwise (fun a b => b.created_at ≤ a.created_at) ∧
    (∀ c : Timestamp, ((get_all s).1).filter (fun n => n.created_at == c) =
        s.filter (fun n => n.created_at == c)) ∧
    get_all ([] : Storage) = ([], []) :=
  ⟨sortByCreatedDesc_perm s, sortByCreatedDesc_pairwise s,
    fun c => sortByCreatedDesc_filter s c, rfl⟩

/-- C5: on an id absent from the store, `get_by_id` returns `None`,
`update` returns `None`, `delete` returns `False`, and each leaves the
store unchanged. -/
theorem not_found_is_not_error (s : Storage) (id : NoteId) (u : NoteUpdate)
    (now : Timestamp)
    (h : ∀ n ∈ s, n.id ≠ id) :
    get_by_id s id = (none, s) ∧
    update s id u now = (none, s) ∧
    delete s id = (false, s) := by
  have hn : findById s id = none := (findById_eq_none_iff s id).mpr h
  exact ⟨by simp [get_by_id, hn], by simp [update, hn], by simp [delete, hn]⟩

theorem not_found_is_not_error_witness :
    (∀ n ∈ [wNote], n.id ≠ 99) ∧
    (get_by_id [wNote] 99 = (none, [wNote]) ∧
      update [wNote] 99 { title := none, content := none } 7 = (none, [wNote]) ∧
      delete [wNote] 99 = (false, [wNote])) :=
  ⟨by decide,
    not_found_is_not_error [wNote] 99 { title := none, content := none } 7 (by decide)⟩

/-- C10: `get_all` and `get_by_id` are pure reads: neither call changes
the stored collection (membership, field values or insertion order), the
returned state is exactly the input state. -/
theorem reads_are_pure (s : Storage) (id : NoteId) :
    (get_all s).2 = s ∧ (get_by_id s id).2 = s :=
  ⟨rfl, rfl⟩

/-- C3, counterexample: with tied creation timestamps the claim fails.
Creating "A" (id 10) and then "B" (id 20) both at time 0, `get_all`
returns them in insertion order `[10, 20]`, not in reverse creation
order `[20, 10]`: Python's `sorted` is stable, so equal keys keep
insertion order. -/
theorem list_all_ties_counterexample :
    ((get_all (create (create [] ⟨"A", "a"⟩ 10 0).2 ⟨"B", "b"⟩ 20 0).2).1).map Note.id
        = [10, 20] ∧
    ([10, 20] : List NoteId) ≠ [20, 10] := by
  exact ⟨rfl, by decide⟩

/-- C3, amended: for every sequence of creates whose creation timestamps
are strictly increasing, `list_all` returns the notes in strictly
reverse creation order (most recently created first); in particular,
creating titles "A", "B", "C" at strictly increasing times yields
[C, B, A]. -/
theorem list_all_reverse_creation_order
    (items : List (NoteCreate × NoteId × Timestamp))
    (hinc : (items.map (fun it => it.2.2)).Pairwise (· < ·)) :
    (get_all (createMany [] items)).1 =
      (items.map (fun it => Note.ofCreate it.1 it.2.1 it.2.2)).reverse := by
  have hstore : createMany [] items =
      items.map (fun it => Note.ofCreate it.1 it.2.1 it.2.2) := by
    simpa using createMany_eq [] items
  have hpw : (items.map (fun it => Note.ofCreate it.1 it.2.1 it.2.2)).Pairwise
      (fun x y => x.created_at < y.created_at) := by
    rw [List.pairwise_map]
    have := (List.pairwise_map (l := items) (f := fun it => it.2.2)
      (R := fun a b => a < b)).mp hinc
    exact this.imp (fun hab => hab)
  simp only [get_all, hstore]
  exact sortByCreatedDesc_of_strict_increasing _ hpw

theorem list_all_reverse_creation_order_witness :
    ((wItems.map (fun it => it.2.2)).Pairwise (· < ·)) ∧
    (get_all (createMany [] wItems)).1 =
      (wItems.map (fun it => Note.ofCreate it.1 it.2.1 it.2.2)).reverse :=
  ⟨by decide, list_all_reverse_creation_order wItems (by decide)⟩

/-- C6: when a note with the given id is present (ids unique, as uuid4
guarantees), `delete` returns `True` and removes exactly that note:
every other note is still present, the length drops by one (so after 3
creates and one delete, `list_all` has length 2), the deleted id is
absent from `list_all`, and a second `delete` of the same id returns
`False` without change. -/
theorem delete_removes_exactly_one (s : Storage) (id : NoteId) (n : Note)
    (h : findById s id = some n) (hu : uniqueIds s) :
    deleteSpec s id := by
  have herased : findById (eraseFirstById id s) id = none :=
    findById_eraseFirstById hu
  have habsent : ∀ m ∈ eraseFirstById id s, m.id ≠ id :=
    (findById_eq_none_iff _ id).mp herased
  refine ⟨by simp [delete, h], by simp [delete, h],
    fun m hm => (eraseFirstById_sublist id s).subset hm,
    fun m hm hne => mem_eraseFirstById_of_ne hm hne,
    eraseFirstById_length h, ?_, ?_, by simp [delete, herased]⟩
  · simp only [get_all]
    rw [(sortByCreatedDesc_perm (eraseFirstById id s)).length_eq]
    exact eraseFirstById_length h
  · intro m hm
    exact habsent m ((sortByCreatedDesc_perm _).subset hm)

theorem delete_removes_exactly_one_witness :
    (findById (createMany [] wItems) 2 = some (Note.ofCreate ⟨"B", "b"⟩ 2 1) ∧
      uniqueIds (createMany [] wItems)) ∧
    deleteSpec (createMany [] wItems) 2 :=
  ⟨⟨by decide, by unfold uniqueIds; decide⟩,
    delete_removes_exactly_one (createMany [] wItems) 2 (Note.ofCreate ⟨"B", "b"⟩ 2 1)
      (by decide) (by unfold uniqueIds; decide)⟩

/-- C8: assuming a monotone clock (the current reading is at least every
stored creation time), every store operation preserves the invariant
`created_at <= updated_at` of every stored note. -/
theorem timestamp_invariant_preserved (s : Storage) (nc : NoteCreate)
    (nid id : NoteId) (u : NoteUpdate) (now : Timestamp)
    (hinv : timestampInv s) (hclock : ∀ n ∈ s, n.created_at ≤ now) :
    timestampInv (create s nc nid now).2 ∧
    timestampInv (get_all s).2 ∧
    timestampInv (get_by_id s id).2 ∧
    timestampInv (update s id u now).2 ∧
    timestampInv (delete s id).2 ∧
    timestampInv (clear s).2 := by
  refine ⟨?_, hinv, hinv, ?_, ?_, ?_⟩
  · intro m hm
    rcases List.mem_append.mp hm with hm | hm
    · exact hinv m hm
    · have : m = Note.ofCreate nc nid now := by simpa using hm
      subst this
      exact Nat.le_refl now
  · cases hfind : findById s id with
    | none => simpa [update, hfind] using hinv
    | some n =>
        intro m hm
        simp only [update, hfind] at hm
        rcases mem_replaceFirstById hm with h1 | ⟨x, hx, hfx⟩
        · exact hinv m h1
        · subst hfx
          simpa [applyUpdate] using hclock x hx
  · cases hfind : findById s id with
    | none => simpa [delete, hfind] using hinv
    | some n =>
        intro m hm
        simp only [delete, hfind] at hm
        exact hinv m ((eraseFirstById_sublist id s).subset hm)
  · intro m hm
    simp [clear] at hm

theorem timestamp_invariant_preserved_witness :
    (timestampInv [wNote] ∧ (∀ n ∈ [wNote], n.created_at ≤ 3)) ∧
    (timestampInv (create [wNote] ⟨"A", "a"⟩ 5 3).2 ∧
      timestampInv (get_all [wNote]).2 ∧
      timestampInv (get_by_id [wNote] 1).2 ∧
      timestampInv (update [wNote] 1 { title := none, content := some (some "D") } 3).2 ∧
      timestampInv (delete [wNote] 1).2 ∧
      timestampInv (clear [wNote]).2) :=
  ⟨⟨by unfold timestampInv; decide, by decide⟩,
    timestamp_invariant_preserved [wNote] ⟨"A", "a"⟩ 5 1
      { title := none, content := some (some "D") } 3
      (by unfold timestampInv; decide) (by decide)⟩

/-- C9: a payload whose `title` is explicitly the null value passes
`NoteUpdate` validation (the annotation is `str | None`), and `update`
writes it into the stored note without re-validation (`Note` does not
validate on assignment), so the stored title becomes null instead of a
non-empty string. -/
theorem update_writes_explicit_null (s : Storage) (id : NoteId)
    (now : Timestamp) (n : Note)
    (h : findById s id = some n) :
    NoteUpdate.validB nullTitleUpdate = true ∧
    (update s id nullTitleUpdate now).1 =
      some { n with title := none, updated_at := now } := by
  constructor
  · rfl
  · simp [update, h, applyUpdate, nullTitleUpdate]

theorem update_writes_explicit_null_witness :
    (findById [wNote] 1 = some wNote) ∧
    (NoteUpdate.validB nullTitleUpdate = true ∧
      (update [wNote] 1 nullTitleUpdate 4).1 =
        some { wNote with title := none, updated_at := 4 }) :=
  ⟨by decide, update_writes_explicit_null [wNote] 1 4 wNote (by decide)⟩

/-- C7, counterexample: the sequence returned by `get_all` shares the
`Note` objects with the live collection.  With the single note `wNote`
(id 1, title `"T"`) the snapshot is `[1]`; an `update` of that note to
title `"T2"` performed after the snapshot changes what the snapshot reads
back, so the claim that later mutations leave a previously returned
sequence exactly as returned is false. -/
theorem snapshot_not_isolated_counterexample :
    (PyState.get_all wSt).1 = [1] ∧
    readSnapshot
        (PyState.update wSt 1 { title := some (some "T2"), content := none } 5).2 [1] ≠
      readSnapshot wSt [1] := by
  exact ⟨rfl, by decide⟩

/-- C7, amended: the list structure returned by `get_all` is fresh, so a
create (with a fresh id) or a delete performed afterwards leaves what the
returned sequence reads back unchanged; but the `Note` objects in it are
shared with the live collection, so an update performed afterwards
changes the fields read back through the previously returned sequence at
exactly the updated id. -/
theorem snapshot_shares_note_objects (st : PyState) (snap : List NoteId)
    (hsnap : snap = (PyState.get_all st).1) :
    (∀ nc id now, id ∉ st.heap.map Note.id →
        readSnapshot (PyState.create st nc id now).2 snap = readSnapshot st snap) ∧
    (∀ id, readSnapshot (PyState.delete st id).2 snap = readSnapshot st snap) ∧
    (∀ id u now, st.live.contains id = true →
        readSnapshot (PyState.update st id u now).2 snap =
          snap.map (fun i => if i = id then (findById st.heap i).map (applyUpdate u now)
            else findById st.heap i)) := by
  refine ⟨?_, ?_, ?_⟩
  · intro nc id now hfresh
    simp only [readSnapshot, PyState.create]
    refine List.map_congr_left ?_
    intro i hi
    have hmem : i ∈ st.heap.map Note.id := snapshot_id_mem_heap (hsnap ▸ hi)
    have hne : (Note.ofCreate nc id now).id ≠ i := by
      intro hcontra
      have hii : id = i := hcontra
      exact hfresh (hii ▸ hmem)
    exact findById_append_of_ne hne
  · intro id
    by_cases hc : st.live.contains id = true
    · simp only [readSnapshot, PyState.delete, if_pos hc]
    · simp only [readSnapshot, PyState.delete, if_neg hc]
  · intro id u now hc
    simp only [readSnapshot, PyState.update, hc, if_pos]
    refine List.map_congr_left ?_
    intro i _
    rw [findById_replaceFirstById st.heap id i (applyUpdate u now) (fun _ => rfl)]
    by_cases hi : i = id <;> simp [hi]

theorem snapshot_shares_note_objects_witness :
    (([1] : List NoteId) = (PyState.get_all wSt).1) ∧
    readSnapshot (PyState.delete wSt 1).2 [1] = readSnapshot wSt [1] :=
  ⟨rfl, (snapshot_shares_note_objects wSt [1] rfl).2.1 1⟩

end GoldenCity
